import Mathlib

/-!
# The driver of the two-phase solver (`src/main.cpp`)

A shallow embedding of `main.cpp`: the solution checker `check`, the option
parser of `main`, `init`, `warmup`, the main solving loop with its global
bookkeeping, and the statistics writer `signal_handler`.

The headers `cubie.h`, `move.h`, `prun.h`, `solve.h` are not part of the
sources at hand.  What `main.cpp` uses of them is taken as a parameter
(`Tables`, `Env`); a concrete cube model, written from the specification, is
given at the end of the definitions (`rubik`) and is used to instantiate the
general theorems.

Machine integers (`int`) are modelled as `Int`, reduced into the signed 32-bit
range by `wrap32` after every arithmetic operation of the source.
-/

set_option maxRecDepth 8192

namespace TwoPhase

/-! ## Machine integers -/

/-- The value of a mathematical integer once stored in a 32-bit `int`. -/
def wrap32 (x : Int) : Int := (x + 2147483648) % 4294967296 - 2147483648

/-! ## What `main.cpp` uses of `cubie.h` and `move.h` -/

/-- A move is an index into the table `move::cubes` of the 18 face turns. -/
abbrev Move := Fin 18

/-- The declarations of `cubie.h` and `move.h` that `main.cpp` refers to:
the type `cubie::cube` with its equality, `cubie::mul` (functional form of
`mul(a, b, into)`: the result written to `into`), the table `move::cubes` and
the constant `cubie::SOLVED_CUBE`. -/
structure Tables where
  cube : Type
  deq : DecidableEq cube
  mul : cube → cube → cube
  cubes : Move → cube
  SOLVED_CUBE : cube

instance (T : Tables) : DecidableEq T.cube := T.deq

/-! ## `check` (lines 151-164) -/

/-- The `for (int m : sol)` loop of `check`.  The state is the pair of locals
`(c1, c2)`; `c2` is `none` while it is still uninitialised.  One round writes
`mul(c1, move::cubes[m])` to `c2` and swaps the two. -/
def checkLoop (T : Tables) : T.cube × Option T.cube → List Move → T.cube × Option T.cube
  | st, [] => st
  | (c1, _), m :: sol => checkLoop T (T.mul c1 (T.cubes m), some c1) sol

/-- The function `check(c, sol)`: `c1 = c`, run the loop, compare `c1` with `SOLVED_CUBE`. -/
def check (T : Tables) (c : T.cube) (sol : List Move) : Bool :=
  decide ((checkLoop T (c, none) sol).1 = T.SOLVED_CUBE)

/-- Sequential application of a move sequence to a cube, as the specification
words it: a left fold with step `x ↦ mul(x, move::cubes[m])`. -/
def applyMoves (T : Tables) (c : T.cube) (sol : List Move) : T.cube :=
  sol.foldl (fun x m => T.mul x (T.cubes m)) c

/-! ## Option parsing of `main` (lines 177-241) -/

/-- One result of `getopt(argc, argv, "cl:m:n:s:t:w:")` together with what
`std::stoi(optarg)` makes of its argument: `some v` when it converts to the
`int` `v`, `none` when it throws.  `other` is any return value of `getopt`
without a `case` of its own (an unknown option, a missing argument). -/
inductive Opt where
  | c
  | l (v : Option Int)
  | m (v : Option Int)
  | n (v : Option Int)
  | s (v : Option Int)
  | t (v : Option Int)
  | w (v : Option Int)
  | other
  deriving DecidableEq, Repr

/-- The local variables of `main` set by the options, with their initial values. -/
structure Config where
  n_threads : Int := 1
  tlim : Int := 10
  n_sols : Int := 1
  max_len : Int := -1
  n_splits : Int := 1
  compress : Bool := false
  n_warmups : Int := 0
  deriving DecidableEq, Repr

/-- How option parsing can end early: `rejected o` is one of the four
`return 1` branches, after the message `Error: Number of ... (-o) must be >= ...`;
`usage` is a call of `usage()`, which prints the usage line and calls `exit(1)`. -/
inductive ParseError where
  | rejected (o : Char)
  | usage
  deriving DecidableEq, Repr

/-- The body of the `switch (opt)` for one option. -/
def parseStep (cfg : Config) : Opt → Except ParseError Config
  | .c => .ok { cfg with compress := true }
  | .l (some v) => .ok { cfg with max_len := v }
  | .m (some v) => .ok { cfg with tlim := v }
  | .n (some v) => if v ≤ 0 then .error (.rejected 'n') else .ok { cfg with n_sols := v }
  | .s (some v) => if v ≤ 0 then .error (.rejected 's') else .ok { cfg with n_splits := v }
  | .t (some v) => if v ≤ 0 then .error (.rejected 't') else .ok { cfg with n_threads := v }
  | .w (some v) => if v ≤ 0 then .error (.rejected 'w') else .ok { cfg with n_warmups := v }
  | .l none => .error .usage
  | .m none => .error .usage
  | .n none => .error .usage
  | .s none => .error .usage
  | .t none => .error .usage
  | .w none => .error .usage
  | .other => .error .usage

/-- The `while ((opt = getopt(...)) != -1)` loop. -/
def parseOpts : Config → List Opt → Except ParseError Config
  | cfg, [] => .ok cfg
  | cfg, o :: rest =>
    match parseStep cfg o with
    | .ok cfg1 => parseOpts cfg1 rest
    | .error e => .error e

/-! ## Observable events and program state -/

/-- The calls whose order matters to the engine's protocol, and the lines the main loop prints. -/
inductive Event where
  | init
  | engine (n_threads tlim n_sols max_len n_splits : Int)
  | prepare
  | solve
  | finish
  | failure (i : Int)
  | partialAvg (attempt num den : Int)
  deriving DecidableEq, Repr

/-- How the program ends: `exit`/`return` with a status, a failing `assert`,
or an array access outside its bounds. -/
inductive Exit where
  | status (code : Int)
  | assertFailed
  | outOfBounds
  deriving DecidableEq, Repr

/-- What one round of the main loop receives from outside: the cube written by
`cubie::shuffle(c)`, the vector `tmp` filled by `solver.solve(c, tmp)` and the
measured time as stored in `times`. -/
structure Attempt (T : Tables) where
  c : T.cube
  tmp : List (List Move)
  time : Int

/-- Everything `main` receives from the absent modules: the result of
`prun::init(true)` and the outcomes of the main loop's shuffle/solve rounds. -/
structure Env (T : Tables) where
  prunInitFails : Bool
  attempts : Nat → Attempt T

/-- The global variables `cubes`, `sols`, `times`, `freq`, `partial_sum`,
`solve_cnt` (lines 23-31), the local `failed` of `main`, and the trace of events. -/
structure State (T : Tables) where
  cubes : List T.cube
  sols : List (List Move)
  times : List Int
  freq : List Int
  partial_sum : Int
  solve_cnt : Int
  failed : Int
  trace : List Event

/-- The globals at program start, after `main` has zeroed `freq[0..99]`. -/
def State.initial (T : Tables) : State T :=
  { cubes := [], sols := [], times := [], freq := List.replicate 100 0,
    partial_sum := 0, solve_cnt := 0, failed := 0, trace := [] }

/-! ## `warmup` (lines 131-149) -/

/-- The `for (int i = 0; i < count; i++)` loop of `warmup`; the first argument
bounds the number of rounds. -/
def warmupLoop (count : Int) : Nat → Int → List Event → List Event
  | 0, _, tr => tr
  | fuel + 1, i, tr =>
    if i < count then
      warmupLoop count fuel (wrap32 (i + 1)) (tr ++ [Event.prepare, Event.solve, Event.finish])
    else tr

/-- The function `warmup(solver, count)`. -/
def warmup (count : Int) (tr : List Event) : List Event :=
  if count = 0 then tr else warmupLoop count count.toNat 0 tr

/-! ## The main loop (lines 255-292) -/

/-- The test `tmp.size() == 0 || !check(c, tmp[0])` of line 273, negated. -/
def attemptOk (T : Tables) (a : Attempt T) : Bool :=
  match a.tmp with
  | [] => false
  | sol :: _ => check T a.c sol

/-- One round of the main loop for the round's outcome `a`; the `Bool` tells
whether the round ends in `break`. -/
def iteration (T : Tables) (n_sols : Int) (a : Attempt T) (i : Int) (st : State T) :
    State T × Bool :=
  let st1 : State T :=
    { st with trace := st.trace ++ [Event.prepare, Event.solve, Event.finish],
              times := st.times ++ [a.time] }
  match a.tmp with
  | [] =>
    ({ st1 with failed := wrap32 (st1.failed + 1), trace := st1.trace ++ [Event.failure i] }, false)
  | sol :: _ =>
    if check T a.c sol = false then
      ({ st1 with failed := wrap32 (st1.failed + 1),
                  trace := st1.trace ++ [Event.failure i] }, false)
    else
      let psum := wrap32 (st1.partial_sum + (sol.length : Int))
      let cnt := wrap32 (st1.solve_cnt + 1)
      ({ st1 with cubes := st1.cubes ++ [a.c], sols := st1.sols ++ [sol],
                  partial_sum := psum, solve_cnt := cnt,
                  trace := st1.trace ++ [Event.partialAvg (wrap32 (i + 1)) psum cnt] },
       decide (cnt = n_sols))

/-- The loop `for (int i = 0; i < 2*n_sols; i++)`; the first `Nat` bounds the
number of rounds, `attempts i` is the outcome of round `i`. -/
def mainLoop (T : Tables) (n_sols : Int) (attempts : Nat → Attempt T) :
    Nat → Int → State T → State T
  | 0, _, st => st
  | fuel + 1, i, st =>
    if i < wrap32 (2 * n_sols) then
      match iteration T n_sols (attempts i.toNat) i st with
      | (st1, true) => st1
      | (st1, false) => mainLoop T n_sols attempts fuel (wrap32 (i + 1)) st1
    else st

/-- The number of rounds that surely exhausts the loop: its upper bound `2*n_sols`. -/
def loopFuel (n_sols : Int) : Nat := (wrap32 (2 * n_sols)).toNat

/-! ## The statistics writer `signal_handler` (lines 41-102) -/

/-- The loop of lines 66-71: `freq[sol.size()]++` for every solution; `none`
when an index falls outside the array. -/
def fillFreq : List Int → List (List Move) → Option (List Int)
  | freq, [] => some freq
  | freq, sol :: rest =>
    if sol.length < freq.length then
      fillFreq (freq.set sol.length (wrap32 (freq.getD sol.length 0 + 1))) rest
    else none

/-- The loop of lines 75-78: `total += freq[len]` for `len = 1..30`. -/
def histTotal (freq : List Int) : Int :=
  (List.range 30).foldl (fun total k => wrap32 (total + freq.getD (k + 1) 0)) 0

/-- The loop of lines 83-94: for every `i < cubes.size()` the pair
`(cubes[i], sols[i])` is written; `none` when `sols[i]` does not exist. -/
def dumpLoop {α : Type} (sols : List (List Move)) : Nat → List α → Option (List (α × List Move))
  | _, [] => some []
  | i, c :: rest =>
    match sols.get? i with
    | none => none
    | some sol => (dumpLoop sols (i + 1) rest).map (fun out => (c, sol) :: out)

/-- The function `signal_handler(signal_num)`: fill the histogram, add it up,
`assert(total == sols.size())`, write the cubes with their solutions, `exit(signal_num)`.
Returns how the program ends and the `freq` array at that point. -/
def signal_handler (T : Tables) (st : State T) (signal_num : Int) : Exit × List Int :=
  match fillFreq st.freq st.sols with
  | none => (Exit.outOfBounds, st.freq)
  | some freq1 =>
    if histTotal freq1 = (st.sols.length : Int) then
      match dumpLoop st.sols 0 st.cubes with
      | none => (Exit.outOfBounds, freq1)
      | some _ => (Exit.status signal_num, freq1)
    else (Exit.assertFailed, freq1)

/-! ## `init` and `main` -/

/-- A finished run: how it ended and the final state. -/
structure Run (T : Tables) where
  exit : Exit
  state : State T

/-- The function `init()` (lines 112-129): the tables are loaded; the `Bool`
tells whether `prun::init(true)` reported failure, in which case `init` has
ended the program by `exit(1)`. -/
def init (T : Tables) (env : Env T) (st : State T) : State T × Bool :=
  ({ st with trace := st.trace ++ [Event.init] }, env.prunInitFails)

/-- Lines 246-250 of `main`: the construction of the engine with
`(n_threads, tlim, 1, max_len, n_splits)`, `warmup(solver, n_warmups)` and
`solver.prepare()`; the globals are untouched. -/
def startEngine (T : Tables) (cfg : Config) (st : State T) : State T :=
  { st with
    trace := warmup cfg.n_warmups
        (st.trace ++ [Event.engine cfg.n_threads cfg.tlim 1 cfg.max_len cfg.n_splits]) ++
      [Event.prepare] }

/-- The program state when the main loop is entered, after a successful `init()`. -/
def loopEntry (T : Tables) (cfg : Config) : State T :=
  startEngine T cfg { State.initial T with trace := [Event.init] }

/-- The function `main` from line 243 on, for the configuration left by the option loop:
`init()`, then `startEngine`, the main loop and `signal_handler(0)`. -/
def run (T : Tables) (cfg : Config) (env : Env T) : Run T :=
  match init T env (State.initial T) with
  | (st1, true) => { exit := Exit.status 1, state := st1 }
  | (st1, false) =>
    let st5 := mainLoop T cfg.n_sols env.attempts (loopFuel cfg.n_sols) 0 (startEngine T cfg st1)
    let fin := signal_handler T st5 0
    { exit := fin.1, state := { st5 with freq := fin.2 } }

/-- The function `main`: parse the options, then `run`. -/
def main (T : Tables) (opts : List Opt) (env : Env T) : Run T :=
  match parseOpts {} opts with
  | .error _ => { exit := Exit.status 1, state := State.initial T }
  | .ok cfg => run T cfg env

/-! ## Specification-side notions used to state the properties -/

/-- The number of successful rounds among the first `k` outcomes. -/
def succCount (T : Tables) (attempts : Nat → Attempt T) (k : Nat) : Nat :=
  ((List.range k).filter (fun j => attemptOk T (attempts j))).length

/-- The sum of the lengths of the recorded solutions. -/
def lenSum (sols : List (List Move)) : Int :=
  (sols.map (fun sol => (sol.length : Int))).sum

/-- The state of the engine's calling protocol: whether `prepare` has been
called since the last `solve`, and whether a `solve` still awaits its `finish`. -/
structure Life where
  prepared : Bool
  solving : Bool
  deriving DecidableEq, Repr

/-- One lifecycle call against the protocol: `solve` is refused (`none`) unless
a `prepare` came since the previous `solve` and the previous `solve` was
followed by `finish`; events that are no lifecycle calls change nothing. -/
def lifeStep (l : Life) : Event → Option Life
  | Event.prepare => some { l with prepared := true }
  | Event.solve => if l.prepared = true ∧ l.solving = false then some ⟨false, true⟩ else none
  | Event.finish => some { l with solving := false }
  | _ => some l

/-- A whole trace against the protocol. -/
def lifeRun : Life → List Event → Option Life
  | l, [] => some l
  | l, e :: rest =>
    match lifeStep l e with
    | none => none
    | some l1 => lifeRun l1 rest

/-- The trace respects the engine's precondition, and no `solve` is left without `finish`. -/
def lifecycleOk (tr : List Event) : Bool :=
  match lifeRun ⟨false, false⟩ tr with
  | none => false
  | some l => !l.solving

/-- The operands `(partial_sum, solve_cnt)` of the partial averages printed in a trace. -/
def printedAvgs : List Event → List (Int × Int)
  | [] => []
  | Event.partialAvg _ num den :: rest => (num, den) :: printedAvgs rest
  | _ :: rest => printedAvgs rest

/-- The operands one expects for the recorded solutions `sols`: after the
`j`-th recorded solution, the sum of the first `j` lengths as a 32-bit `int`, and `j`. -/
def expectedAvgs (sols : List (List Move)) : List (Int × Int) :=
  (List.range sols.length).map
    (fun j => (wrap32 (lenSum (sols.take (j + 1))), ((j + 1 : Nat) : Int)))

/-- An option giving a thread, split or solution count that is not positive. -/
def Opt.badCount : Opt → Option Char
  | .t (some v) => if v ≤ 0 then some 't' else none
  | .s (some v) => if v ≤ 0 then some 's' else none
  | .n (some v) => if v ≤ 0 then some 'n' else none
  | _ => none

/-! ## A concrete cube model -/

/-- Modelled from the spec: the type `cubie::cube` of the absent `cubie.h`.
Section 3 of the specification: corner permutation (8 values in 0-7), edge
permutation (12 values in 0-11), corner orientation (8 values mod 3), edge
orientation (12 values mod 2). -/
structure Cube where
  cperm : Fin 8 → Fin 8
  eperm : Fin 12 → Fin 12
  cori : Fin 8 → Fin 3
  eori : Fin 12 → Fin 2

/-- Two cubes are equal when their four arrays are. -/
instance Cube.decEq : DecidableEq Cube := fun a b =>
  decidable_of_iff (a.cperm = b.cperm ∧ a.eperm = b.eperm ∧ a.cori = b.cori ∧ a.eori = b.eori)
    (by cases a; cases b; simp)

/-- Modelled from the spec: `cubie::mul` of the absent `cubie.h`, the
composition of two states by the standard rule for pieces and orientations:
position `i` of `a * b` holds the piece that `a` has at position `b.perm i`,
its orientation being that piece's orientation in `a` plus the twist `b` adds at `i`. -/
def Cube.mul (a b : Cube) : Cube where
  cperm := fun i => a.cperm (b.cperm i)
  eperm := fun i => a.eperm (b.eperm i)
  cori := fun i => a.cori (b.cperm i) + b.cori i
  eori := fun i => a.eori (b.eperm i) + b.eori i

/-- Modelled from the spec: `cubie::SOLVED_CUBE`, the identity state. -/
def Cube.solved : Cube where
  cperm := fun i => i
  eperm := fun i => i
  cori := fun _ => 0
  eori := fun _ => 0

/-- Modelled from the spec: the six clockwise quarter turns U, R, F, D, L, B of
the absent `move.h`, in the usual cubie numbering (corners URF, UFL, ULB, UBR,
DFR, DLF, DBL, DRB; edges UR, UF, UL, UB, DR, DF, DL, DB, FR, FL, BL, BR). -/
def faceTurn : Fin 6 → Cube
  | 0 => { cperm := ![3, 0, 1, 2, 4, 5, 6, 7], cori := ![0, 0, 0, 0, 0, 0, 0, 0],
           eperm := ![3, 0, 1, 2, 4, 5, 6, 7, 8, 9, 10, 11],
           eori := ![0, 0, 0, 0, 0, 0, 0, 0, 0, 0, 0, 0] }
  | 1 => { cperm := ![4, 1, 2, 0, 7, 5, 6, 3], cori := ![2, 0, 0, 1, 1, 0, 0, 2],
           eperm := ![8, 1, 2, 3, 11, 5, 6, 7, 4, 9, 10, 0],
           eori := ![0, 0, 0, 0, 0, 0, 0, 0, 0, 0, 0, 0] }
  | 2 => { cperm := ![1, 5, 2, 3, 0, 4, 6, 7], cori := ![1, 2, 0, 0, 2, 1, 0, 0],
           eperm := ![0, 9, 2, 3, 4, 8, 6, 7, 1, 5, 10, 11],
           eori := ![0, 1, 0, 0, 0, 1, 0, 0, 1, 1, 0, 0] }
  | 3 => { cperm := ![0, 1, 2, 3, 5, 6, 7, 4], cori := ![0, 0, 0, 0, 0, 0, 0, 0],
           eperm := ![0, 1, 2, 3, 5, 6, 7, 4, 8, 9, 10, 11],
           eori := ![0, 0, 0, 0, 0, 0, 0, 0, 0, 0, 0, 0] }
  | 4 => { cperm := ![0, 2, 6, 3, 4, 1, 5, 7], cori := ![0, 1, 2, 0, 0, 2, 1, 0],
           eperm := ![0, 1, 10, 3, 4, 5, 9, 7, 8, 2, 6, 11],
           eori := ![0, 0, 0, 0, 0, 0, 0, 0, 0, 0, 0, 0] }
  | 5 => { cperm := ![0, 1, 3, 7, 4, 5, 2, 6], cori := ![0, 0, 1, 2, 0, 0, 2, 1],
           eperm := ![0, 1, 2, 11, 4, 5, 6, 10, 8, 9, 3, 7],
           eori := ![0, 0, 0, 1, 0, 0, 0, 1, 0, 0, 1, 1] }

/-- Modelled from the spec: the table `move::cubes` of the absent `move.h`, 6
faces times 3 turn amounts: entry `3 * f + k` is the quarter turn of face `f`
applied `k + 1` times (names U, U2, U', R, R2, R', F, ..., B'). -/
def moveCube (m : Move) : Cube :=
  let q := faceTurn ⟨m.val / 3, by omega⟩
  match m.val % 3 with
  | 0 => q
  | 1 => q.mul q
  | _ => (q.mul q).mul q

/-- Modelled from the spec: the inverse of a move, the same face turned the other way round. -/
def invMove (m : Move) : Move := ⟨3 * (m.val / 3) + (2 - m.val % 3), by omega⟩

/-- The cube model above as an instance of what `main.cpp` expects of its headers. -/
def rubik : Tables where
  cube := Cube
  deq := Cube.decEq
  mul := Cube.mul
  cubes := moveCube
  SOLVED_CUBE := Cube.solved

/-- The moves named in the specification's example. -/
def mU : Move := 0
/-- The counter-clockwise quarter turn U'. -/
def mU' : Move := 2
/-- The clockwise quarter turn R. -/
def mR : Move := 3
/-- The counter-clockwise quarter turn R'. -/
def mR' : Move := 5
/-- The half turn F2. -/
def mF2 : Move := 7

/-- An environment in which tables load and every shuffle returns the solved
cube, solved by the empty move sequence. -/
def solvedEnv (T : Tables) : Env T where
  prunInitFails := false
  attempts := fun _ => { c := T.SOLVED_CUBE, tmp := [[]], time := 0 }

/-- Sixteen quarter turns of the U face, which bring every cube back to itself. -/
def sixteenU : List Move := List.replicate 16 mU

/-- An environment in which every solve returns the sixteen-move sequence `sixteenU`
for the solved cube. -/
def longEnv : Env rubik where
  prunInitFails := false
  attempts := fun _ => { c := Cube.solved, tmp := [sixteenU], time := 0 }

/-! ## The invariant of the main loop -/

/-- What holds of the program state after `k` rounds of the main loop entered
with the trace `tr0`. -/
structure LoopInv (T : Tables) (attempts : Nat → Attempt T) (tr0 : List Event) (k : Nat)
    (st : State T) : Prop where
  times_len : st.times.length = k
  solves : st.trace.count Event.solve = tr0.count Event.solve + k
  cubes_len : st.cubes.length = st.sols.length
  sols_len : st.sols.length = succCount T attempts k
  cnt : st.solve_cnt = (st.sols.length : Int)
  failed : st.failed = (k : Int) - (st.sols.length : Int)
  psum : st.partial_sum = wrap32 (lenSum st.sols)
  verified : ∀ p ∈ st.cubes.zip st.sols, check T p.1 p.2 = true
  recorded : ∀ sol ∈ st.sols, ∃ j, j < k ∧ (attempts j).tmp.head? = some sol
  avgs : printedAvgs st.trace = printedAvgs tr0 ++ expectedAvgs st.sols
  freq_same : st.freq = List.replicate 100 0

/-- The program state after at most `fuel` rounds of the main loop of a run
with configuration `cfg`; with `fuel = loopFuel cfg.n_sols` it is the state in
which `run` calls `signal_handler(0)`. -/
def loopState (T : Tables) (cfg : Config) (env : Env T) (fuel : Nat) : State T :=
  mainLoop T cfg.n_sols env.attempts fuel 0 (loopEntry T cfg)

/-- The trace leaves the engine idle: the protocol accepts it and no `solve` awaits its `finish`. -/
def protocolIdle (tr : List Event) : Prop :=
  ∃ p, lifeRun ⟨false, false⟩ tr = some ⟨p, false⟩

/-! ## `check` computes sequential move application -/

theorem checkLoop_fst (T : Tables) (sol : List Move) :
    ∀ (c1 : T.cube) (c2 : Option T.cube), (checkLoop T (c1, c2) sol).1 = applyMoves T c1 sol := by
  induction sol with
  | nil => intro c1 c2; rfl
  | cons m rest ih =>
    intro c1 c2
    simp only [checkLoop, applyMoves, List.foldl_cons]
    exact ih _ _

theorem check_eq_decide (T : Tables) (c : T.cube) (sol : List Move) :
    check T c sol = decide (applyMoves T c sol = T.SOLVED_CUBE) := by
  simp only [check, checkLoop_fst]

/-- C1: `check(c, sol)` is true exactly when applying the moves of `sol` one
after another to `c`, each by `x ↦ mul(x, move::cubes[m])`, gives
`SOLVED_CUBE`; and `check(c, [])` is true exactly when `c` is the solved cube. -/
theorem check_iff_applyMoves (T : Tables) (c : T.cube) (sol : List Move) :
    (check T c sol = true ↔
        sol.foldl (fun x m => T.mul x (T.cubes m)) c = T.SOLVED_CUBE) ∧
      (check T c [] = true ↔ c = T.SOLVED_CUBE) := by
  refine ⟨?_, ?_⟩
  · rw [check_eq_decide]; simp [applyMoves]
  · rw [check_eq_decide]; simp [applyMoves]

/-! ## The literal inverse sequence -/

theorem applyMoves_append (T : Tables) (c : T.cube) (s1 s2 : List Move) :
    applyMoves T c (s1 ++ s2) = applyMoves T (applyMoves T c s1) s2 := by
  simp [applyMoves, List.foldl_append]

theorem applyMoves_inverse (T : Tables) (inv : Move → Move)
    (hinv : ∀ (m : Move) (c : T.cube), T.mul (T.mul c (T.cubes m)) (T.cubes (inv m)) = c)
    (s : List Move) :
    ∀ c : T.cube, applyMoves T (applyMoves T c s) (s.reverse.map inv) = c := by
  induction s with
  | nil => intro c; rfl
  | cons m rest ih =>
    intro c
    rw [List.reverse_cons, List.map_append, applyMoves_append]
    have h1 : applyMoves T c (m :: rest) = applyMoves T (T.mul c (T.cubes m)) rest := rfl
    rw [h1, ih]
    simp [applyMoves, hinv]

/-- C7: if every move `m` has an inverse move `inv m` with
`mul(mul(c, move[m]), move[inv m]) = c` for every cube `c`, then the cube
obtained by applying a move sequence `s` to the solved cube is accepted by
`check` together with the literal inverse sequence of `s`. -/
theorem check_inverse_sequence (T : Tables) (inv : Move → Move)
    (hinv : ∀ (m : Move) (c : T.cube), T.mul (T.mul c (T.cubes m)) (T.cubes (inv m)) = c)
    (s : List Move) :
    check T (applyMoves T T.SOLVED_CUBE s) (s.reverse.map inv) = true := by
  rw [check_eq_decide, applyMoves_inverse T inv hinv s]
  simp

/-! ## The concrete cube model obeys the inverse law -/

theorem Cube.ext_fields {a b : Cube} (h1 : a.cperm = b.cperm) (h2 : a.eperm = b.eperm)
    (h3 : a.cori = b.cori) (h4 : a.eori = b.eori) : a = b := by
  cases a; cases b; simp_all

theorem Cube.mul_assoc (a b c : Cube) : (a.mul b).mul c = a.mul (b.mul c) := by
  apply Cube.ext_fields <;> funext i <;> simp [Cube.mul, add_assoc]

theorem Cube.mul_solved (a : Cube) : a.mul Cube.solved = a := by
  apply Cube.ext_fields <;> funext i <;> simp [Cube.mul, Cube.solved]

theorem moveCube_invMove : ∀ m : Move, (moveCube m).mul (moveCube (invMove m)) = Cube.solved := by
  decide

theorem rubik_inverse_law (m : Move) (c : rubik.cube) :
    rubik.mul (rubik.mul c (rubik.cubes m)) (rubik.cubes (invMove m)) = c := by
  show (Cube.mul (Cube.mul c (moveCube m)) (moveCube (invMove m))) = c
  rw [Cube.mul_assoc, moveCube_invMove, Cube.mul_solved]

/-- Witness of C7: the scramble R U R' U' F2 of the solved cube is accepted by
`check` with F2 U R U' R'. -/
theorem check_inverse_sequence_witness :
    (∀ (m : Move) (c : rubik.cube),
        rubik.mul (rubik.mul c (rubik.cubes m)) (rubik.cubes (invMove m)) = c) ∧
      [mR, mU, mR', mU', mF2].reverse.map invMove = [mF2, mU, mR, mU', mR'] ∧
      check rubik (applyMoves rubik rubik.SOLVED_CUBE [mR, mU, mR', mU', mF2])
        ([mR, mU, mR', mU', mF2].reverse.map invMove) = true :=
  ⟨rubik_inverse_law, by decide,
    check_inverse_sequence rubik invMove rubik_inverse_law [mR, mU, mR', mU', mF2]⟩

/-! ## Option parsing -/

theorem parseStep_badCount (cfg : Config) (o : Opt) (ch : Char) (h : o.badCount = some ch) :
    parseStep cfg o = .error (.rejected ch) := by
  cases o with
  | t v =>
    cases v with
    | none => simp [Opt.badCount] at h
    | some x =>
      simp only [Opt.badCount] at h
      split_ifs at h with hx
      cases h
      simp [parseStep, hx]
  | s v =>
    cases v with
    | none => simp [Opt.badCount] at h
    | some x =>
      simp only [Opt.badCount] at h
      split_ifs at h with hx
      cases h
      simp [parseStep, hx]
  | n v =>
    cases v with
    | none => simp [Opt.badCount] at h
    | some x =>
      simp only [Opt.badCount] at h
      split_ifs at h with hx
      cases h
      simp [parseStep, hx]
  | _ => simp [Opt.badCount] at h

theorem parseOpts_append (pre post : List Opt) :
    ∀ cfg : Config, parseOpts cfg (pre ++ post) =
      match parseOpts cfg pre with
      | .ok cfg1 => parseOpts cfg1 post
      | .error e => .error e := by
  induction pre with
  | nil => intro cfg; rfl
  | cons o rest ih =>
    intro cfg
    simp only [List.cons_append, parseOpts]
    cases parseStep cfg o with
    | ok cfg1 => exact ih cfg1
    | error e => rfl

theorem parseOpts_error_of_bad (opts : List Opt) :
    ∀ cfg : Config, (∃ o ∈ opts, o.badCount.isSome = true) →
      ∃ e, parseOpts cfg opts = .error e := by
  induction opts with
  | nil => intro cfg h; simp at h
  | cons o rest ih =>
    intro cfg h
    simp only [parseOpts]
    cases hstep : parseStep cfg o with
    | error e => exact ⟨e, rfl⟩
    | ok cfg1 =>
      obtain ⟨o1, hmem, hbad⟩ := h
      rcases List.mem_cons.mp hmem with heq | hin
      · subst heq
        obtain ⟨ch, hch⟩ := Option.isSome_iff_exists.mp hbad
        rw [parseStep_badCount cfg o1 ch hch] at hstep
        cases hstep
      · exact ih cfg1 ⟨o1, hin, hbad⟩

theorem run_eq (T : Tables) (cfg : Config) (env : Env T) :
    run T cfg env =
      if env.prunInitFails = true then
        { exit := Exit.status 1, state := { State.initial T with trace := [Event.init] } }
      else
        { exit := (signal_handler T
            (mainLoop T cfg.n_sols env.attempts (loopFuel cfg.n_sols) 0 (loopEntry T cfg)) 0).1,
          state :=
            { mainLoop T cfg.n_sols env.attempts (loopFuel cfg.n_sols) 0 (loopEntry T cfg) with
              freq := (signal_handler T
                (mainLoop T cfg.n_sols env.attempts (loopFuel cfg.n_sols) 0
                  (loopEntry T cfg)) 0).2 } } := by
  unfold run init
  cases env.prunInitFails <;> rfl

theorem main_of_parse_error (T : Tables) (opts : List Opt) (env : Env T) (e : ParseError)
    (h : parseOpts {} opts = .error e) :
    main T opts env = { exit := Exit.status 1, state := State.initial T } := by
  simp only [main, h]

theorem main_of_parse_ok (T : Tables) (opts : List Opt) (env : Env T) (cfg : Config)
    (h : parseOpts {} opts = .ok cfg) : main T opts env = run T cfg env := by
  simp only [main, h]

/-- C3: a command line in which `-t`, `-s` or `-n` is given a value that
parses to an integer `<= 0` makes `main` end with exit status 1 without any
event (no `init`, no engine, no `prepare` or `solve`); when the options before
it are accepted the parse stops at that very option with its error message;
and a value `>= 1` is accepted and stored. -/
theorem nonpositive_counts_rejected (T : Tables) (env : Env T) :
    (∀ opts : List Opt, (∃ o ∈ opts, o.badCount.isSome = true) →
        (main T opts env).exit = Exit.status 1 ∧ (main T opts env).state.trace = []) ∧
      (∀ (pre post : List Opt) (o : Opt) (ch : Char) (cfg : Config),
        parseOpts {} pre = .ok cfg → o.badCount = some ch →
          parseOpts {} (pre ++ o :: post) = .error (.rejected ch)) ∧
      (∀ (cfg : Config) (v : Int), 1 ≤ v →
        parseStep cfg (.t (some v)) = .ok { cfg with n_threads := v } ∧
        parseStep cfg (.s (some v)) = .ok { cfg with n_splits := v } ∧
        parseStep cfg (.n (some v)) = .ok { cfg with n_sols := v }) := by
  refine ⟨?_, ?_, ?_⟩
  · intro opts h
    obtain ⟨e, he⟩ := parseOpts_error_of_bad opts {} h
    rw [main_of_parse_error T opts env e he]
    exact ⟨rfl, rfl⟩
  · intro pre post o ch cfg hpre hbad
    rw [parseOpts_append, hpre]
    simp only [parseOpts, parseStep_badCount cfg o ch hbad]
  · intro cfg v hv
    have h : ¬ v ≤ 0 := by omega
    simp [parseStep, h]

/-- Witness of C3: the command line `-c -t 0 -n 5` is rejected at `-t 0`, and `-t 4` is accepted. -/
theorem nonpositive_counts_rejected_witness :
    ((main rubik [Opt.c, Opt.t (some 0), Opt.n (some 5)] (solvedEnv rubik)).exit = Exit.status 1 ∧
      (main rubik [Opt.c, Opt.t (some 0), Opt.n (some 5)] (solvedEnv rubik)).state.trace = []) ∧
    parseOpts {} ([Opt.c] ++ Opt.t (some 0) :: [Opt.n (some 5)]) = .error (.rejected 't') ∧
    parseStep {} (.t (some 4)) = .ok { n_threads := 4 } :=
  ⟨(nonpositive_counts_rejected rubik (solvedEnv rubik)).1 [Opt.c, Opt.t (some 0), Opt.n (some 5)]
      ⟨Opt.t (some 0), by simp, by decide⟩,
    (nonpositive_counts_rejected rubik (solvedEnv rubik)).2.1 [Opt.c] [Opt.n (some 5)]
      (Opt.t (some 0)) 't' { compress := true } rfl rfl,
    ((nonpositive_counts_rejected rubik (solvedEnv rubik)).2.2 {} 4 (by decide)).1⟩

/-- C6, at the failing input: the option `-w 0` is rejected by the test
`(n_warmups = std::stoi(optarg)) <= 0` with the message `... (-w) must be >= 0.`,
and `main` ends with exit status 1 before anything else happens. -/
theorem warmup_zero_rejected (T : Tables) (env : Env T) :
    parseStep {} (Opt.w (some 0)) = .error (.rejected 'w') ∧
      parseOpts {} [Opt.w (some 0)] = .error (.rejected 'w') ∧
      (main T [Opt.w (some 0)] env).exit = Exit.status 1 ∧
      (main T [Opt.w (some 0)] env).state.trace = [] := by
  have h : parseOpts {} [Opt.w (some 0)] = .error (.rejected 'w') := rfl
  rw [main_of_parse_error T _ env _ h]
  exact ⟨rfl, h, rfl, rfl⟩

/-! ## 32-bit arithmetic -/

theorem wrap32_of_range (x : Int) (h1 : -2147483648 ≤ x) (h2 : x ≤ 2147483647) :
    wrap32 x = x := by
  unfold wrap32; omega

theorem wrap32_le (x : Int) : wrap32 x ≤ 2147483647 := by
  unfold wrap32; omega

theorem wrap32_add_left (a b : Int) : wrap32 (wrap32 a + b) = wrap32 (a + b) := by
  unfold wrap32; omega

/-! ## One round of the main loop -/

theorem attemptOk_true_iff (T : Tables) (a : Attempt T) :
    attemptOk T a = true ↔ ∃ sol rest, a.tmp = sol :: rest ∧ check T a.c sol = true := by
  unfold attemptOk
  cases h : a.tmp with
  | nil => simp
  | cons sol rest => simp

theorem attemptOk_false_iff (T : Tables) (a : Attempt T) :
    attemptOk T a = false ↔
      (a.tmp = [] ∨ ∃ sol rest, a.tmp = sol :: rest ∧ check T a.c sol = false) := by
  unfold attemptOk
  cases h : a.tmp with
  | nil => simp
  | cons sol rest => simp

theorem iteration_fail (T : Tables) (n_sols : Int) (a : Attempt T) (i : Int) (st : State T)
    (h : attemptOk T a = false) :
    iteration T n_sols a i st =
      ({ st with times := st.times ++ [a.time],
                 failed := wrap32 (st.failed + 1),
                 trace := st.trace ++ [Event.prepare, Event.solve, Event.finish] ++
                   [Event.failure i] }, false) := by
  unfold attemptOk at h
  unfold iteration
  cases htmp : a.tmp with
  | nil => rfl
  | cons sol rest =>
    rw [htmp] at h
    simp only at h
    simp only [h, if_true]

theorem iteration_ok (T : Tables) (n_sols : Int) (a : Attempt T) (i : Int) (st : State T)
    (sol : List Move) (rest : List (List Move)) (htmp : a.tmp = sol :: rest)
    (h : check T a.c sol = true) :
    iteration T n_sols a i st =
      ({ st with times := st.times ++ [a.time],
                 cubes := st.cubes ++ [a.c],
                 sols := st.sols ++ [sol],
                 partial_sum := wrap32 (st.partial_sum + (sol.length : Int)),
                 solve_cnt := wrap32 (st.solve_cnt + 1),
                 trace := st.trace ++ [Event.prepare, Event.solve, Event.finish] ++
                   [Event.partialAvg (wrap32 (i + 1))
                     (wrap32 (st.partial_sum + (sol.length : Int))) (wrap32 (st.solve_cnt + 1))] },
       decide (wrap32 (st.solve_cnt + 1) = n_sols)) := by
  unfold iteration
  simp only [htmp, h]
  rfl

/-! ## Counting successful rounds -/

theorem succCount_zero (T : Tables) (att : Nat → Attempt T) : succCount T att 0 = 0 := rfl

theorem succCount_succ (T : Tables) (att : Nat → Attempt T) (k : Nat) :
    succCount T att (k + 1) = succCount T att k + (if attemptOk T (att k) = true then 1 else 0) := by
  unfold succCount
  rw [List.range_succ, List.filter_append, List.length_append]
  by_cases h : attemptOk T (att k) = true <;> simp [List.filter, h]

theorem succCount_le (T : Tables) (att : Nat → Attempt T) (k : Nat) : succCount T att k ≤ k := by
  induction k with
  | zero => simp [succCount_zero]
  | succ k ih => rw [succCount_succ]; split <;> omega

theorem succCount_mono (T : Tables) (att : Nat → Attempt T) {j k : Nat} (h : j ≤ k) :
    succCount T att j ≤ succCount T att k := by
  induction k with
  | zero =>
    have : j = 0 := by omega
    subst this; exact le_refl _
  | succ k ih =>
    rcases Nat.lt_or_ge j (k + 1) with hlt | hge
    · have := ih (by omega)
      rw [succCount_succ]; omega
    · have : j = k + 1 := by omega
      subst this; exact le_refl _

theorem succCount_all (T : Tables) (att : Nat → Attempt T)
    (hall : ∀ j, attemptOk T (att j) = true) (k : Nat) : succCount T att k = k := by
  induction k with
  | zero => rfl
  | succ k ih => rw [succCount_succ, ih, if_pos (hall k)]

/-! ## Sums of lengths and printed averages -/

theorem lenSum_append (sols : List (List Move)) (sol : List Move) :
    lenSum (sols ++ [sol]) = lenSum sols + (sol.length : Int) := by
  simp [lenSum]

theorem printedAvgs_append (a b : List Event) :
    printedAvgs (a ++ b) = printedAvgs a ++ printedAvgs b := by
  induction a with
  | nil => rfl
  | cons e rest ih => cases e <;> simp [printedAvgs, ih]

theorem expectedAvgs_append (sols : List (List Move)) (sol : List Move) :
    expectedAvgs (sols ++ [sol]) =
      expectedAvgs sols ++
        [(wrap32 (lenSum (sols ++ [sol])), ((sols.length + 1 : Nat) : Int))] := by
  unfold expectedAvgs
  rw [List.length_append, List.length_singleton, List.range_succ, List.map_append]
  congr 1
  · apply List.map_congr_left
    intro j hj
    have hj1 : j + 1 ≤ sols.length := by
      have := List.mem_range.mp hj
      omega
    rw [List.take_append_of_le_length hj1]
  · have h : List.take (sols.length + 1) (sols ++ [sol]) = sols ++ [sol] :=
      List.take_of_length_le (by simp)
    simp [h]

/-! ## The invariant is established and preserved -/

theorem loopInv_initial (T : Tables) (att : Nat → Attempt T) (tr : List Event) :
    LoopInv T att tr 0 { State.initial T with trace := tr } where
  times_len := rfl
  solves := rfl
  cubes_len := rfl
  sols_len := rfl
  cnt := rfl
  failed := rfl
  psum := rfl
  verified := by intro p hp; simp [State.initial] at hp
  recorded := by intro sol hsol; simp [State.initial] at hsol
  avgs := by simp [State.initial, expectedAvgs]
  freq_same := rfl

theorem loopInv_step (T : Tables) (n_sols : Int) (att : Nat → Attempt T) (tr0 : List Event)
    (k : Nat) (st : State T) (hk : (k : Int) < 2147483647) (inv : LoopInv T att tr0 k st) :
    LoopInv T att tr0 (k + 1) (iteration T n_sols (att k) (k : Int) st).1 := by
  have hle := succCount_le T att k
  have hlen := inv.sols_len
  by_cases hok : attemptOk T (att k) = true
  · obtain ⟨sol, rest, htmp, hchk⟩ := (attemptOk_true_iff T (att k)).mp hok
    rw [iteration_ok T n_sols (att k) k st sol rest htmp hchk]
    refine ⟨?_, ?_, ?_, ?_, ?_, ?_, ?_, ?_, ?_, ?_, inv.freq_same⟩
    · simp [inv.times_len]
    · simp [List.count_append, inv.solves]; omega
    · simp [inv.cubes_len]
    · simp [succCount_succ, hok, ← hlen]
    · simp only [List.length_append, List.length_singleton, inv.cnt]
      rw [wrap32_of_range] <;> push_cast <;> omega
    · simp only [List.length_append, List.length_singleton, inv.failed]
      push_cast; omega
    · simp only [inv.psum, lenSum_append, wrap32_add_left]
    · intro p hp
      simp only at hp
      rw [List.zip_append inv.cubes_len] at hp
      rcases List.mem_append.mp hp with h1 | h1
      · exact inv.verified p h1
      · simp at h1; subst h1; exact hchk
    · intro s1 hs1
      simp only at hs1
      rcases List.mem_append.mp hs1 with h1 | h1
      · obtain ⟨j, hj, hj2⟩ := inv.recorded s1 h1
        exact ⟨j, by omega, hj2⟩
      · simp at h1; subst h1
        exact ⟨k, by omega, by simp [htmp]⟩
    · simp only [printedAvgs_append, inv.avgs, expectedAvgs_append, inv.psum, inv.cnt,
        lenSum_append, wrap32_add_left]
      have hc : wrap32 ((st.sols.length : Int) + 1) = ((st.sols.length + 1 : Nat) : Int) := by
        rw [wrap32_of_range] <;> push_cast <;> omega
      simp [printedAvgs, hc]
  · have hfalse : attemptOk T (att k) = false := by simpa using hok
    rw [iteration_fail T n_sols (att k) k st hfalse]
    refine ⟨?_, ?_, ?_, ?_, ?_, ?_, ?_, ?_, ?_, ?_, inv.freq_same⟩
    · simp [inv.times_len]
    · simp [List.count_append, inv.solves]; omega
    · exact inv.cubes_len
    · simp [succCount_succ, hfalse, ← hlen]
    · exact inv.cnt
    · simp only [inv.failed]
      rw [wrap32_of_range] <;> push_cast <;> omega
    · exact inv.psum
    · exact inv.verified
    · intro s1 hs1
      obtain ⟨j, hj, hj2⟩ := inv.recorded s1 hs1
      exact ⟨j, by omega, hj2⟩
    · simp only [printedAvgs_append, inv.avgs]
      simp [printedAvgs]

/-! ## Induction over the main loop -/

theorem iteration_snd (T : Tables) (n_sols : Int) (a : Attempt T) (i : Int) (st : State T) :
    (iteration T n_sols a i st).2 =
      (attemptOk T a && decide (wrap32 (st.solve_cnt + 1) = n_sols)) := by
  by_cases hok : attemptOk T a = true
  · obtain ⟨sol, rest, htmp, hchk⟩ := (attemptOk_true_iff T a).mp hok
    rw [iteration_ok T n_sols a i st sol rest htmp hchk, hok]
    simp
  · have hfalse : attemptOk T a = false := by simpa using hok
    rw [iteration_fail T n_sols a i st hfalse, hfalse]
    simp

theorem mainLoop_zero (T : Tables) (n_sols : Int) (att : Nat → Attempt T) (i : Int)
    (st : State T) : mainLoop T n_sols att 0 i st = st := rfl

theorem mainLoop_done (T : Tables) (n_sols : Int) (att : Nat → Attempt T) (fuel : Nat) (i : Int)
    (st : State T) (h : ¬ i < wrap32 (2 * n_sols)) : mainLoop T n_sols att fuel i st = st := by
  cases fuel with
  | zero => rfl
  | succ fuel => simp only [mainLoop, h, if_false]

theorem mainLoop_break (T : Tables) (n_sols : Int) (att : Nat → Attempt T) (fuel k : Nat)
    (st : State T) (h : (k : Int) < wrap32 (2 * n_sols))
    (hb : (iteration T n_sols (att k) (k : Int) st).2 = true) :
    mainLoop T n_sols att (fuel + 1) (k : Int) st =
      (iteration T n_sols (att k) (k : Int) st).1 := by
  simp only [mainLoop, h, if_true, Int.toNat_ofNat]
  rcases hit : iteration T n_sols (att k) (k : Int) st with ⟨st1, b⟩
  rw [hit] at hb
  simp only at hb
  subst hb
  rfl

theorem mainLoop_continue (T : Tables) (n_sols : Int) (att : Nat → Attempt T) (fuel k : Nat)
    (st : State T) (h : (k : Int) < wrap32 (2 * n_sols))
    (hb : (iteration T n_sols (att k) (k : Int) st).2 = false) :
    mainLoop T n_sols att (fuel + 1) (k : Int) st =
      mainLoop T n_sols att fuel ((k + 1 : Nat) : Int)
        (iteration T n_sols (att k) (k : Int) st).1 := by
  have hw : wrap32 ((k : Int) + 1) = ((k + 1 : Nat) : Int) := by
    have := wrap32_le (2 * n_sols)
    rw [wrap32_of_range] <;> push_cast <;> omega
  simp only [mainLoop, h, if_true, Int.toNat_ofNat]
  rcases hit : iteration T n_sols (att k) (k : Int) st with ⟨st1, b⟩
  rw [hit] at hb
  simp only at hb
  subst hb
  simp only [hw]

theorem mainLoop_induct (T : Tables) (n_sols : Int) (att : Nat → Attempt T)
    (P : Nat → State T → Prop)
    (hstep : ∀ (k : Nat) (st : State T), (k : Int) < wrap32 (2 * n_sols) → P k st →
      P (k + 1) (iteration T n_sols (att k) (k : Int) st).1) :
    ∀ (fuel k : Nat) (st : State T), P k st →
      ∃ k1, k ≤ k1 ∧ k1 ≤ k + fuel ∧ P k1 (mainLoop T n_sols att fuel (k : Int) st) := by
  intro fuel
  induction fuel with
  | zero => intro k st h; exact ⟨k, le_refl _, le_refl _, h⟩
  | succ fuel ih =>
    intro k st h
    by_cases hc : (k : Int) < wrap32 (2 * n_sols)
    · cases hb : (iteration T n_sols (att k) (k : Int) st).2 with
      | true =>
        rw [mainLoop_break T n_sols att fuel k st hc hb]
        exact ⟨k + 1, by omega, by omega, hstep k st hc h⟩
      | false =>
        rw [mainLoop_continue T n_sols att fuel k st hc hb]
        obtain ⟨k1, h1, h2, h3⟩ := ih (k + 1) _ (hstep k st hc h)
        exact ⟨k1, by omega, by omega, h3⟩
    · rw [mainLoop_done T n_sols att (fuel + 1) k st hc]
      exact ⟨k, le_refl _, by omega, h⟩

theorem mainLoop_loopInv (T : Tables) (n_sols : Int) (att : Nat → Attempt T) (tr0 : List Event)
    (fuel k : Nat) (st : State T) (inv : LoopInv T att tr0 k st) :
    ∃ k1, k ≤ k1 ∧ k1 ≤ k + fuel ∧
      LoopInv T att tr0 k1 (mainLoop T n_sols att fuel (k : Int) st) := by
  apply mainLoop_induct T n_sols att (fun k st => LoopInv T att tr0 k st) _ fuel k st inv
  intro k st hk hinv
  have := wrap32_le (2 * n_sols)
  exact loopInv_step T n_sols att tr0 k st (by omega) hinv

/-- More rounds than the loop bound `2*n_sols` allows change nothing: the
bound on the number of rounds is never what ends the loop. -/
theorem mainLoop_fuel_stable (T : Tables) (n_sols : Int) (att : Nat → Attempt T) (extra : Nat) :
    ∀ (fuel k : Nat) (st : State T), wrap32 (2 * n_sols) ≤ (k : Int) + (fuel : Int) →
      mainLoop T n_sols att (fuel + extra) (k : Int) st =
        mainLoop T n_sols att fuel (k : Int) st := by
  intro fuel
  induction fuel with
  | zero =>
    intro k st h
    rw [mainLoop_zero, mainLoop_done]
    push_cast at h; omega
  | succ fuel ih =>
    intro k st h
    by_cases hc : (k : Int) < wrap32 (2 * n_sols)
    · have e : fuel + 1 + extra = (fuel + extra) + 1 := by omega
      rw [e]
      cases hb : (iteration T n_sols (att k) (k : Int) st).2 with
      | true =>
        rw [mainLoop_break T n_sols att _ k st hc hb, mainLoop_break T n_sols att _ k st hc hb]
      | false =>
        rw [mainLoop_continue T n_sols att _ k st hc hb,
          mainLoop_continue T n_sols att _ k st hc hb]
        apply ih
        push_cast at h ⊢; omega
    · rw [mainLoop_done T n_sols att _ k st hc, mainLoop_done T n_sols att _ k st hc]

/-- How the loop ends when `1 <= n_sols < 2^30`: either by `break`, right after
the round in which the count of successes reaches `n_sols`, or after `2*n_sols`
rounds with fewer successes than `n_sols`. -/
theorem mainLoop_exit (T : Tables) (n_sols : Int) (att : Nat → Attempt T) (tr0 : List Event)
    (hn2 : n_sols < 1073741824) :
    ∀ (fuel k : Nat) (st : State T), LoopInv T att tr0 k st →
      (succCount T att k : Int) < n_sols → (k : Int) ≤ 2 * n_sols →
      2 * n_sols ≤ (k : Int) + (fuel : Int) →
      ∃ k1, k ≤ k1 ∧ (k1 : Int) ≤ 2 * n_sols ∧
        LoopInv T att tr0 k1 (mainLoop T n_sols att fuel (k : Int) st) ∧
        ((k < k1 ∧ (succCount T att k1 : Int) = n_sols ∧
            (succCount T att (k1 - 1) : Int) = n_sols - 1 ∧
            attemptOk T (att (k1 - 1)) = true) ∨
          ((succCount T att k1 : Int) < n_sols ∧ (k1 : Int) = 2 * n_sols)) := by
  intro fuel
  induction fuel with
  | zero =>
    intro k st inv hs hk hf
    refine ⟨k, le_refl _, hk, inv, Or.inr ⟨hs, ?_⟩⟩
    push_cast at hf; omega
  | succ fuel ih =>
    intro k st inv hs hk hf
    have hle := succCount_le T att k
    have hB : wrap32 (2 * n_sols) = 2 * n_sols := by
      rw [wrap32_of_range] <;> omega
    by_cases hc : (k : Int) < 2 * n_sols
    · have hc1 : (k : Int) < wrap32 (2 * n_sols) := by rw [hB]; exact hc
      have inv1 := loopInv_step T n_sols att tr0 k st (by omega) inv
      have hsnd := iteration_snd T n_sols (att k) (k : Int) st
      have hcnt : wrap32 (st.solve_cnt + 1) = (succCount T att k : Int) + 1 := by
        rw [inv.cnt, inv.sols_len, wrap32_of_range] <;> omega
      have hsucc := succCount_succ T att k
      cases hb : (iteration T n_sols (att k) (k : Int) st).2 with
      | true =>
        rw [mainLoop_break T n_sols att fuel k st hc1 hb]
        rw [hb] at hsnd
        have h1 : attemptOk T (att k) = true ∧ wrap32 (st.solve_cnt + 1) = n_sols := by
          simpa using hsnd.symm
        rw [if_pos h1.1] at hsucc
        refine ⟨k + 1, by omega, by push_cast; omega, inv1, Or.inl ⟨by omega, ?_, ?_, ?_⟩⟩
        · rw [hsucc]; push_cast; omega
        · simp only [Nat.add_sub_cancel]; omega
        · simpa using h1.1
      | false =>
        rw [mainLoop_continue T n_sols att fuel k st hc1 hb]
        rw [hb] at hsnd
        have h1 : attemptOk T (att k) = true → ¬ wrap32 (st.solve_cnt + 1) = n_sols := by
          intro h2 h3
          simp [h2, h3] at hsnd
        have hs1 : (succCount T att (k + 1) : Int) < n_sols := by
          rw [hsucc]
          by_cases hok : attemptOk T (att k) = true
          · have := h1 hok
            rw [if_pos hok]; push_cast; omega
          · rw [if_neg hok]; push_cast; omega
        obtain ⟨k1, hk1, hk2, hinv, hend⟩ :=
          ih (k + 1) _ inv1 hs1 (by push_cast; omega) (by push_cast at hf ⊢; omega)
        refine ⟨k1, by omega, hk2, hinv, ?_⟩
        rcases hend with ⟨h3, h4⟩ | h3
        · exact Or.inl ⟨by omega, h4⟩
        · exact Or.inr h3
    · have hc1 : ¬ (k : Int) < wrap32 (2 * n_sols) := by rw [hB]; exact hc
      rw [mainLoop_done T n_sols att _ k st hc1]
      exact ⟨k, le_refl _, hk, inv, Or.inr ⟨hs, by omega⟩⟩

/-! ## Traces only grow -/

theorem warmupLoop_extends (count : Int) :
    ∀ (fuel : Nat) (i : Int) (tr : List Event), ∃ rest, warmupLoop count fuel i tr = tr ++ rest := by
  intro fuel
  induction fuel with
  | zero => intro i tr; exact ⟨[], by simp [warmupLoop]⟩
  | succ fuel ih =>
    intro i tr
    simp only [warmupLoop]
    split_ifs with h
    · obtain ⟨rest, hrest⟩ := ih (wrap32 (i + 1)) (tr ++ [Event.prepare, Event.solve, Event.finish])
      exact ⟨[Event.prepare, Event.solve, Event.finish] ++ rest, by rw [hrest, List.append_assoc]⟩
    · exact ⟨[], by simp⟩

theorem warmup_extends (count : Int) (tr : List Event) : ∃ rest, warmup count tr = tr ++ rest := by
  unfold warmup
  split_ifs with h
  · exact ⟨[], by simp⟩
  · exact warmupLoop_extends count _ _ _

theorem iteration_extends (T : Tables) (n_sols : Int) (a : Attempt T) (i : Int) (st : State T) :
    ∃ rest, (iteration T n_sols a i st).1.trace =
      st.trace ++ [Event.prepare, Event.solve, Event.finish] ++ rest := by
  by_cases hok : attemptOk T a = true
  · obtain ⟨sol, rest, htmp, hchk⟩ := (attemptOk_true_iff T a).mp hok
    rw [iteration_ok T n_sols a i st sol rest htmp hchk]
    exact ⟨_, rfl⟩
  · have hfalse : attemptOk T a = false := by simpa using hok
    rw [iteration_fail T n_sols a i st hfalse]
    exact ⟨_, rfl⟩

theorem mainLoop_extends (T : Tables) (n_sols : Int) (att : Nat → Attempt T) (fuel : Nat)
    (st : State T) : ∃ rest, (mainLoop T n_sols att fuel 0 st).trace = st.trace ++ rest := by
  obtain ⟨k1, _, _, h⟩ := mainLoop_induct T n_sols att
    (fun _ st1 => ∃ rest, st1.trace = st.trace ++ rest)
    (by
      intro k st1 _ hP
      obtain ⟨rest, hrest⟩ := hP
      obtain ⟨rest1, hrest1⟩ := iteration_extends T n_sols (att k) (k : Int) st1
      exact ⟨rest ++ ([Event.prepare, Event.solve, Event.finish] ++ rest1), by
        rw [hrest1, hrest]; simp⟩)
    fuel 0 st ⟨[], by simp⟩
  exact h

/-- C4: when `prun::init` reports failure, the program ends with exit status 1
inside `init()`: the engine is never constructed and no `prepare`, `solve` or
`finish` is called; when it reports success, `init()` returns and the engine
is constructed next, with the parsed configuration. -/
theorem prun_failure_refuses_start (T : Tables) (cfg : Config) (env : Env T) :
    (env.prunInitFails = true →
        (run T cfg env).exit = Exit.status 1 ∧ (run T cfg env).state.trace = [Event.init]) ∧
      (env.prunInitFails = false →
        ∃ rest, (run T cfg env).state.trace =
          Event.init :: Event.engine cfg.n_threads cfg.tlim 1 cfg.max_len cfg.n_splits :: rest) ∧
      (∀ opts : List Opt, parseOpts {} opts = .ok cfg → main T opts env = run T cfg env) := by
  refine ⟨?_, ?_, ?_⟩
  · intro h
    simp [run_eq, h]
  · intro h
    obtain ⟨rest, hrest⟩ := mainLoop_extends T cfg.n_sols env.attempts (loopFuel cfg.n_sols)
      (loopEntry T cfg)
    obtain ⟨rest0, hrest0⟩ := warmup_extends cfg.n_warmups
      [Event.init, Event.engine cfg.n_threads cfg.tlim 1 cfg.max_len cfg.n_splits]
    refine ⟨rest0 ++ [Event.prepare] ++ rest, ?_⟩
    simp only [run_eq, h, Bool.false_eq_true, if_false, hrest]
    simp [loopEntry, startEngine, hrest0]
  · intro opts h
    exact main_of_parse_ok T opts env cfg h

/-- Witness of C4: with the default configuration, a failing `prun::init`
ends the run after `init`, a successful one is followed by the engine's construction. -/
theorem prun_failure_refuses_start_witness :
    ((run rubik {} { solvedEnv rubik with prunInitFails := true }).exit = Exit.status 1 ∧
      (run rubik {} { solvedEnv rubik with prunInitFails := true }).state.trace = [Event.init]) ∧
    (∃ rest, (run rubik {} (solvedEnv rubik)).state.trace =
      Event.init :: Event.engine 1 10 1 (-1) 1 :: rest) ∧
    main rubik [] (solvedEnv rubik) = run rubik {} (solvedEnv rubik) :=
  ⟨(prun_failure_refuses_start rubik {} { solvedEnv rubik with prunInitFails := true }).1 rfl,
    (prun_failure_refuses_start rubik {} (solvedEnv rubik)).2.1 rfl,
    (prun_failure_refuses_start rubik {} (solvedEnv rubik)).2.2 [] rfl⟩

/-! ## The engine's calling protocol -/

theorem lifeRun_append (a b : List Event) :
    ∀ l : Life, lifeRun l (a ++ b) =
      match lifeRun l a with
      | none => none
      | some l1 => lifeRun l1 b := by
  induction a with
  | nil => intro l; rfl
  | cons e rest ih =>
    intro l
    simp only [List.cons_append, lifeRun]
    cases lifeStep l e with
    | none => rfl
    | some l1 => exact ih l1

theorem protocolIdle_append (tr es : List Event)
    (hes : ∀ p, ∃ q, lifeRun ⟨p, false⟩ es = some ⟨q, false⟩) (h : protocolIdle tr) :
    protocolIdle (tr ++ es) := by
  obtain ⟨p, hp⟩ := h
  obtain ⟨q, hq⟩ := hes p
  exact ⟨q, by rw [lifeRun_append, hp]; exact hq⟩

theorem lifeRun_round (p : Bool) (rest : List Event)
    (hrest : ∀ e ∈ rest, e ≠ Event.prepare ∧ e ≠ Event.solve ∧ e ≠ Event.finish) :
    lifeRun ⟨p, false⟩ ([Event.prepare, Event.solve, Event.finish] ++ rest) =
      some ⟨false, false⟩ := by
  have h : ∀ (l : Life), lifeRun l rest = some l := by
    induction rest with
    | nil => intro l; rfl
    | cons e rest ih =>
      intro l
      have he := hrest e (by simp)
      have hstep : lifeStep l e = some l := by
        cases e <;> simp_all [lifeStep]
      simp only [lifeRun, hstep]
      exact ih (fun e1 he1 => hrest e1 (by simp [he1])) l
  simp [lifeRun, lifeStep, h]

theorem lifecycleOk_iff (tr : List Event) : lifecycleOk tr = true ↔ protocolIdle tr := by
  unfold lifecycleOk protocolIdle
  cases h : lifeRun ⟨false, false⟩ tr with
  | none => simp
  | some l =>
    cases l with
    | mk p s => cases s <;> simp

theorem warmupLoop_idle (count : Int) :
    ∀ (fuel : Nat) (i : Int) (tr : List Event), protocolIdle tr →
      protocolIdle (warmupLoop count fuel i tr) := by
  intro fuel
  induction fuel with
  | zero => intro i tr h; exact h
  | succ fuel ih =>
    intro i tr h
    simp only [warmupLoop]
    split_ifs with hc
    · apply ih
      apply protocolIdle_append _ _ _ h
      intro p
      exact ⟨false, by simpa using lifeRun_round p [] (by simp)⟩
    · exact h

theorem warmup_idle (count : Int) (tr : List Event) (h : protocolIdle tr) :
    protocolIdle (warmup count tr) := by
  unfold warmup
  split_ifs with hc
  · exact h
  · exact warmupLoop_idle count _ _ _ h

theorem iteration_idle (T : Tables) (n_sols : Int) (a : Attempt T) (i : Int) (st : State T)
    (h : protocolIdle st.trace) : protocolIdle (iteration T n_sols a i st).1.trace := by
  by_cases hok : attemptOk T a = true
  · obtain ⟨sol, rest, htmp, hchk⟩ := (attemptOk_true_iff T a).mp hok
    rw [iteration_ok T n_sols a i st sol rest htmp hchk]
    simp only [List.append_assoc]
    apply protocolIdle_append _ _ _ h
    intro p
    exact ⟨false, lifeRun_round p _ (by simp)⟩
  · have hfalse : attemptOk T a = false := by simpa using hok
    rw [iteration_fail T n_sols a i st hfalse]
    simp only [List.append_assoc]
    apply protocolIdle_append _ _ _ h
    intro p
    exact ⟨false, lifeRun_round p _ (by simp)⟩

theorem mainLoop_idle (T : Tables) (n_sols : Int) (att : Nat → Attempt T) (fuel : Nat)
    (st : State T) (h : protocolIdle st.trace) :
    protocolIdle (mainLoop T n_sols att fuel 0 st).trace := by
  obtain ⟨k1, _, _, h1⟩ := mainLoop_induct T n_sols att (fun _ st1 => protocolIdle st1.trace)
    (fun k st1 _ hP => iteration_idle T n_sols (att k) (k : Int) st1 hP) fuel 0 st h
  exact h1

theorem loopEntry_idle (T : Tables) (cfg : Config) : protocolIdle (loopEntry T cfg).trace := by
  show protocolIdle (warmup cfg.n_warmups _ ++ [Event.prepare])
  apply protocolIdle_append
  · intro p; exact ⟨true, rfl⟩
  · apply warmup_idle
    exact ⟨false, rfl⟩

/-- The protocol checker refuses a `solve` without `prepare`, a second `solve`
after one `prepare`, a `solve` before the previous one's `finish`, and a trace
ending inside a `solve`. -/
theorem lifecycleOk_refuses :
    lifecycleOk [Event.solve] = false ∧
      lifecycleOk [Event.prepare, Event.solve, Event.finish, Event.solve] = false ∧
      lifecycleOk [Event.prepare, Event.solve, Event.prepare, Event.solve] = false ∧
      lifecycleOk [Event.prepare, Event.solve] = false ∧
      lifecycleOk [Event.prepare, Event.prepare, Event.solve, Event.finish] = true := by
  decide

/-- C5: in every execution of the driver, for any warm-up count and any
`n_sols`, every `solve` is preceded by a `prepare` with no other `solve` in
between and is followed by `finish` before the next `solve`; this holds after
any number of rounds of the main loop and for the whole run. -/
theorem lifecycle_respected (T : Tables) (cfg : Config) (env : Env T) :
    (∀ fuel : Nat,
        lifecycleOk (mainLoop T cfg.n_sols env.attempts fuel 0 (loopEntry T cfg)).trace = true) ∧
      lifecycleOk (run T cfg env).state.trace = true ∧
      (∀ opts : List Opt, lifecycleOk (main T opts env).state.trace = true) := by
  have hloop : ∀ (c : Config) (fuel : Nat),
      lifecycleOk (mainLoop T c.n_sols env.attempts fuel 0 (loopEntry T c)).trace = true := by
    intro c fuel
    rw [lifecycleOk_iff]
    exact mainLoop_idle T c.n_sols env.attempts fuel _ (loopEntry_idle T c)
  have hrun : ∀ c : Config, lifecycleOk (run T c env).state.trace = true := by
    intro c
    rw [run_eq]
    split_ifs with h
    · rfl
    · exact hloop c _
  refine ⟨hloop cfg, hrun cfg, ?_⟩
  intro opts
  unfold main
  cases parseOpts {} opts with
  | error e => rfl
  | ok c => exact hrun c

/-! ## The invariant along a run -/

theorem printedAvgs_warmupLoop (count : Int) :
    ∀ (fuel : Nat) (i : Int) (tr : List Event),
      printedAvgs (warmupLoop count fuel i tr) = printedAvgs tr := by
  intro fuel
  induction fuel with
  | zero => intro i tr; rfl
  | succ fuel ih =>
    intro i tr
    simp only [warmupLoop]
    split_ifs with h
    · rw [ih, printedAvgs_append]; simp [printedAvgs]
    · rfl

theorem printedAvgs_loopEntry (T : Tables) (cfg : Config) :
    printedAvgs (loopEntry T cfg).trace = [] := by
  show printedAvgs (warmup cfg.n_warmups _ ++ [Event.prepare]) = []
  rw [printedAvgs_append]
  unfold warmup
  split_ifs with h
  · simp [printedAvgs]
  · rw [printedAvgs_warmupLoop]; simp [printedAvgs]

theorem loopState_inv (T : Tables) (cfg : Config) (env : Env T) (fuel : Nat) :
    ∃ k, k ≤ fuel ∧
      LoopInv T env.attempts (loopEntry T cfg).trace k (loopState T cfg env fuel) := by
  obtain ⟨k, _, hk, inv⟩ := mainLoop_loopInv T cfg.n_sols env.attempts (loopEntry T cfg).trace
    fuel 0 (loopEntry T cfg) (loopInv_initial T env.attempts _)
  exact ⟨k, by omega, inv⟩

theorem run_state_of_success (T : Tables) (cfg : Config) (env : Env T)
    (h : env.prunInitFails = false) :
    (run T cfg env).state =
      { loopState T cfg env (loopFuel cfg.n_sols) with
        freq := (signal_handler T (loopState T cfg env (loopFuel cfg.n_sols)) 0).2 } ∧
    (run T cfg env).exit = (signal_handler T (loopState T cfg env (loopFuel cfg.n_sols)) 0).1 := by
  simp [run_eq, h, loopState]

theorem run_fields_of_success (T : Tables) (cfg : Config) (env : Env T)
    (h : env.prunInitFails = false) :
    (run T cfg env).state.sols = (loopState T cfg env (loopFuel cfg.n_sols)).sols ∧
    (run T cfg env).state.partial_sum =
      (loopState T cfg env (loopFuel cfg.n_sols)).partial_sum ∧
    (run T cfg env).state.solve_cnt = (loopState T cfg env (loopFuel cfg.n_sols)).solve_cnt ∧
    (run T cfg env).state.failed = (loopState T cfg env (loopFuel cfg.n_sols)).failed ∧
    (run T cfg env).state.times = (loopState T cfg env (loopFuel cfg.n_sols)).times ∧
    (run T cfg env).state.cubes = (loopState T cfg env (loopFuel cfg.n_sols)).cubes := by
  rw [(run_state_of_success T cfg env h).1]
  exact ⟨rfl, rfl, rfl, rfl, rfl, rfl⟩

theorem lenSum_nonneg (sols : List (List Move)) : 0 ≤ lenSum sols := by
  induction sols with
  | nil => simp [lenSum]
  | cons sol rest ih =>
    have : lenSum (sol :: rest) = (sol.length : Int) + lenSum rest := by simp [lenSum]
    omega

theorem lenSum_const (m : Nat) (sols : List (List Move)) (h : ∀ sol ∈ sols, sol.length = m) :
    lenSum sols = (m : Int) * (sols.length : Int) := by
  induction sols with
  | nil => simp [lenSum]
  | cons sol rest ih =>
    have e : lenSum (sol :: rest) = (sol.length : Int) + lenSum rest := by simp [lenSum]
    rw [e, ih (fun s1 hs1 => h s1 (by simp [hs1])), h sol (by simp), List.length_cons]
    push_cast; ring

theorem dumpLoop_zip {α : Type} (sols : List (List Move)) (cubes : List α) :
    ∀ i : Nat, i + cubes.length ≤ sols.length →
      dumpLoop sols i cubes = some (cubes.zip (sols.drop i)) := by
  induction cubes with
  | nil => intro i _; simp [dumpLoop]
  | cons c rest ih =>
    intro i hi
    have hlt : i < sols.length := by simp at hi; omega
    have hget : sols.get? i = some sols[i] := by simp [List.getElem?_eq_getElem hlt]
    have hdrop : sols.drop i = sols[i] :: sols.drop (i + 1) := List.drop_eq_getElem_cons hlt
    simp only [dumpLoop, hget]
    rw [ih (i + 1) (by simp at hi; omega)]
    conv_rhs => rw [hdrop]
    rfl

theorem expectedAvgs_den_ne_zero (sols : List (List Move)) :
    ∀ q ∈ expectedAvgs sols, q.2 ≠ 0 := by
  intro q hq
  unfold expectedAvgs at hq
  obtain ⟨j, _, hj⟩ := List.mem_map.mp hq
  subst hj
  simp only
  omega

/-- C2: after any number of rounds of the main loop, and at the end of the
run, every recorded pair `(cubes[i], sols[i])` passes `check`; and a round
whose solve result is empty or whose first solution fails `check` records
nothing, counts one failure and does not end the loop. -/
theorem recorded_pairs_verified (T : Tables) (cfg : Config) (env : Env T) (fuel : Nat) :
    ((loopState T cfg env fuel).cubes.length = (loopState T cfg env fuel).sols.length ∧
      ∀ p ∈ (loopState T cfg env fuel).cubes.zip (loopState T cfg env fuel).sols,
        check T p.1 p.2 = true) ∧
    ((run T cfg env).state.cubes.length = (run T cfg env).state.sols.length ∧
      ∀ p ∈ (run T cfg env).state.cubes.zip (run T cfg env).state.sols,
        check T p.1 p.2 = true) ∧
    (∀ (n_sols : Int) (a : Attempt T) (i : Int) (st : State T),
      (a.tmp = [] ∨ ∃ sol rest, a.tmp = sol :: rest ∧ check T a.c sol = false) →
        (iteration T n_sols a i st).1.cubes = st.cubes ∧
        (iteration T n_sols a i st).1.sols = st.sols ∧
        (iteration T n_sols a i st).1.solve_cnt = st.solve_cnt ∧
        (iteration T n_sols a i st).1.partial_sum = st.partial_sum ∧
        (iteration T n_sols a i st).1.failed = wrap32 (st.failed + 1) ∧
        (iteration T n_sols a i st).2 = false) := by
  have hloop : ∀ f : Nat,
      (loopState T cfg env f).cubes.length = (loopState T cfg env f).sols.length ∧
      ∀ p ∈ (loopState T cfg env f).cubes.zip (loopState T cfg env f).sols,
        check T p.1 p.2 = true := by
    intro f
    obtain ⟨k, _, inv⟩ := loopState_inv T cfg env f
    exact ⟨inv.cubes_len, inv.verified⟩
  refine ⟨hloop fuel, ?_, ?_⟩
  · cases h : env.prunInitFails with
    | true => simp [run_eq, h, State.initial]
    | false =>
      rw [(run_state_of_success T cfg env h).1]
      exact hloop _
  · intro n_sols a i st h
    rw [iteration_fail T n_sols a i st ((attemptOk_false_iff T a).mpr h)]
    exact ⟨rfl, rfl, rfl, rfl, rfl, rfl⟩

/-- Witness of C2: a run on the concrete cube model, and a round whose solve result is empty. -/
theorem recorded_pairs_verified_witness :
    (∀ p ∈ (loopState rubik {} (solvedEnv rubik) 1).cubes.zip
        (loopState rubik {} (solvedEnv rubik) 1).sols, check rubik p.1 p.2 = true) ∧
    (({ c := Cube.solved, tmp := [], time := 0 } : Attempt rubik).tmp = [] ∨
      ∃ sol rest, ({ c := Cube.solved, tmp := [], time := 0 } : Attempt rubik).tmp = sol :: rest ∧
        check rubik Cube.solved sol = false) ∧
    (iteration rubik 1 { c := Cube.solved, tmp := [], time := 0 } 0 (State.initial rubik)).1.sols
      = [] ∧
    (iteration rubik 1 { c := Cube.solved, tmp := [], time := 0 } 0 (State.initial rubik)).1.failed
      = wrap32 (0 + 1) :=
  ⟨(recorded_pairs_verified rubik {} (solvedEnv rubik) 1).1.2,
    Or.inl rfl,
    ((recorded_pairs_verified rubik {} (solvedEnv rubik) 1).2.2 1
      { c := Cube.solved, tmp := [], time := 0 } 0 (State.initial rubik) (Or.inl rfl)).2.1,
    ((recorded_pairs_verified rubik {} (solvedEnv rubik) 1).2.2 1
      { c := Cube.solved, tmp := [], time := 0 } 0 (State.initial rubik) (Or.inl rfl)).2.2.2.2.1⟩

/-- C9 (amended): before and after every round of the main loop,
`cubes.size() = sols.size() = solve_cnt`; `partial_sum` is the sum of the
lengths of the recorded solutions reduced to a 32-bit `int`, hence that sum
itself as long as it does not exceed `2^31 - 1`; `times.size()` is the number
of `solve` calls the loop has made; the statistics writer finds `sols[i]` for
every `i < cubes.size()`; and every partial average printed has as operands
the (32-bit) sum of the lengths recorded so far and their number, which is not zero. -/
theorem bookkeeping_invariant (T : Tables) (cfg : Config) (env : Env T) (fuel : Nat)
    (st : State T) (hst : st = loopState T cfg env fuel) :
    st.cubes.length = st.sols.length ∧
      st.solve_cnt = (st.sols.length : Int) ∧
      st.partial_sum = wrap32 (lenSum st.sols) ∧
      (lenSum st.sols ≤ 2147483647 → st.partial_sum = lenSum st.sols) ∧
      st.trace.count Event.solve =
        (loopEntry T cfg).trace.count Event.solve + st.times.length ∧
      dumpLoop st.sols 0 st.cubes = some (st.cubes.zip st.sols) ∧
      printedAvgs st.trace = expectedAvgs st.sols ∧
      (∀ q ∈ printedAvgs st.trace, q.2 ≠ 0) := by
  subst hst
  obtain ⟨k, _, inv⟩ := loopState_inv T cfg env fuel
  have havg : printedAvgs (loopState T cfg env fuel).trace =
      expectedAvgs (loopState T cfg env fuel).sols := by
    rw [inv.avgs, printedAvgs_loopEntry, List.nil_append]
  refine ⟨inv.cubes_len, inv.cnt, inv.psum, ?_, ?_, ?_, havg, ?_⟩
  · intro h
    have h0 := lenSum_nonneg (loopState T cfg env fuel).sols
    rw [inv.psum, wrap32_of_range] <;> omega
  · rw [inv.solves, inv.times_len]
  · have h := dumpLoop_zip (loopState T cfg env fuel).sols (loopState T cfg env fuel).cubes 0
      (by rw [inv.cubes_len]; omega)
    simpa using h
  · rw [havg]
    exact expectedAvgs_den_ne_zero _

/-- Witness of C9 (amended): the state after one round on the concrete cube model. -/
theorem bookkeeping_invariant_witness :
    lenSum (loopState rubik {} (solvedEnv rubik) 1).sols ≤ 2147483647 ∧
      (loopState rubik {} (solvedEnv rubik) 1).partial_sum =
        lenSum (loopState rubik {} (solvedEnv rubik) 1).sols ∧
      (loopState rubik {} (solvedEnv rubik) 1).solve_cnt = 1 :=
  have h := bookkeeping_invariant rubik {} (solvedEnv rubik) 1
    (loopState rubik {} (solvedEnv rubik) 1) rfl
  ⟨by decide, h.2.2.2.1 (by decide), by decide⟩

theorem attemptOk_longEnv (j : Nat) : attemptOk rubik (longEnv.attempts j) = true := by
  show attemptOk rubik { c := Cube.solved, tmp := [sixteenU], time := 0 } = true
  decide

theorem loopFuel_of_range (n_sols : Int) (h1 : 0 ≤ n_sols) (h2 : n_sols < 1073741824) :
    (loopFuel n_sols : Int) = 2 * n_sols := by
  unfold loopFuel
  rw [wrap32_of_range] <;> omega

/-- How the main loop of a run ends when `1 <= n_sols < 2^30`. -/
theorem loopState_exit (T : Tables) (cfg : Config) (env : Env T) (h1 : 1 ≤ cfg.n_sols)
    (h2 : cfg.n_sols < 1073741824) :
    ∃ k1 : Nat, (k1 : Int) ≤ 2 * cfg.n_sols ∧
      LoopInv T env.attempts (loopEntry T cfg).trace k1
        (loopState T cfg env (loopFuel cfg.n_sols)) ∧
      ((0 < k1 ∧ (succCount T env.attempts k1 : Int) = cfg.n_sols ∧
          (succCount T env.attempts (k1 - 1) : Int) = cfg.n_sols - 1 ∧
          attemptOk T (env.attempts (k1 - 1)) = true) ∨
        ((succCount T env.attempts k1 : Int) < cfg.n_sols ∧ (k1 : Int) = 2 * cfg.n_sols)) := by
  have hf := loopFuel_of_range cfg.n_sols (by omega) h2
  obtain ⟨k1, _, hk1, inv, hend⟩ := mainLoop_exit T cfg.n_sols env.attempts
    (loopEntry T cfg).trace h2 (loopFuel cfg.n_sols) 0 (loopEntry T cfg)
    (loopInv_initial T _ _) (by rw [succCount_zero]; push_cast; omega) (by push_cast; omega)
    (by rw [hf]; push_cast; omega)
  exact ⟨k1, hk1, inv, hend⟩

/-- Counterexample to C9 as stated: with `-n 134217728` and every solve
returning a solution of 16 moves, the recorded lengths add up to `2^31`, while
the `int` `partial_sum` holds `-2^31`. -/
theorem partial_sum_overflows :
    lenSum (main rubik [Opt.n (some 134217728)] longEnv).state.sols = 2147483648 ∧
      (main rubik [Opt.n (some 134217728)] longEnv).state.partial_sum = -2147483648 ∧
      (main rubik [Opt.n (some 134217728)] longEnv).state.partial_sum ≠
        lenSum (main rubik [Opt.n (some 134217728)] longEnv).state.sols := by
  have hmain : main rubik [Opt.n (some 134217728)] longEnv =
      run rubik { n_sols := 134217728 } longEnv := main_of_parse_ok _ _ _ _ rfl
  obtain ⟨k1, hk1, inv, hend⟩ := loopState_exit rubik { n_sols := 134217728 } longEnv
    (by decide) (by decide)
  have hall : succCount rubik longEnv.attempts k1 = k1 :=
    succCount_all rubik longEnv.attempts attemptOk_longEnv k1
  have hk : (k1 : Int) = 134217728 := by
    rcases hend with ⟨_, h2, _⟩ | ⟨h2, h3⟩
    · rw [hall] at h2; exact h2
    · rw [hall] at h2
      have e1 : ({ n_sols := 134217728 } : Config).n_sols = 134217728 := rfl
      rw [e1] at h2 h3
      omega
  have hfields := run_fields_of_success rubik { n_sols := 134217728 } longEnv rfl
  have hsols : (main rubik [Opt.n (some 134217728)] longEnv).state.sols =
      (loopState rubik { n_sols := 134217728 } longEnv
        (loopFuel ({ n_sols := 134217728 } : Config).n_sols)).sols := by
    rw [hmain]; exact hfields.1
  have hpsum : (main rubik [Opt.n (some 134217728)] longEnv).state.partial_sum =
      (loopState rubik { n_sols := 134217728 } longEnv
        (loopFuel ({ n_sols := 134217728 } : Config).n_sols)).partial_sum := by
    rw [hmain]; exact hfields.2.1
  have hlen : ∀ sol ∈ (loopState rubik { n_sols := 134217728 } longEnv
      (loopFuel ({ n_sols := 134217728 } : Config).n_sols)).sols, sol.length = 16 := by
    intro sol hsol
    obtain ⟨j, _, hj⟩ := inv.recorded sol hsol
    have : sol = sixteenU := by
      simp [longEnv] at hj
      exact hj.symm
    subst this
    rfl
  have hsum := lenSum_const 16 _ hlen
  have hcount : ((loopState rubik { n_sols := 134217728 } longEnv
      (loopFuel ({ n_sols := 134217728 } : Config).n_sols)).sols.length : Int) = 134217728 := by
    rw [inv.sols_len, hall, hk]
  rw [hcount] at hsum
  have hs : lenSum (main rubik [Opt.n (some 134217728)] longEnv).state.sols = 2147483648 := by
    rw [hsols, hsum]; decide
  have hp : (main rubik [Opt.n (some 134217728)] longEnv).state.partial_sum = -2147483648 := by
    rw [hpsum, inv.psum, hsum]; decide
  exact ⟨hs, hp, by rw [hs, hp]; decide⟩

/-! ## How the main loop ends -/

theorem loopFuel_stable (T : Tables) (cfg : Config) (env : Env T) (extra : Nat) :
    mainLoop T cfg.n_sols env.attempts (loopFuel cfg.n_sols + extra) 0 (loopEntry T cfg) =
      loopState T cfg env (loopFuel cfg.n_sols) := by
  have h := mainLoop_fuel_stable T cfg.n_sols env.attempts extra (loopFuel cfg.n_sols) 0
    (loopEntry T cfg) (by unfold loopFuel; push_cast; omega)
  simpa [loopState] using h

/-- C10 (amended): for `1 <= n_sols < 2^30` and every sequence of solve
outcomes, the main loop makes at most `2*n_sols` attempts (a larger bound on
the number of rounds changes nothing); on exit `solve_cnt` is the number of
successes among the attempts made, equals `min(n_sols, successes among the
first 2*n_sols outcomes)` and never exceeds `n_sols`; `solve_cnt + failed` is
the number of attempts; when `solve_cnt` reaches `n_sols` the loop has stopped
right after the successful attempt that brought the count from `n_sols - 1`
to `n_sols`, and otherwise all `2*n_sols` attempts were made. -/
theorem main_loop_exit_counts (T : Tables) (cfg : Config) (env : Env T)
    (h1 : 1 ≤ cfg.n_sols) (h2 : cfg.n_sols < 1073741824)
    (st : State T) (hst : st = loopState T cfg env (loopFuel cfg.n_sols)) :
    (st.times.length : Int) ≤ 2 * cfg.n_sols ∧
      st.trace.count Event.solve =
        (loopEntry T cfg).trace.count Event.solve + st.times.length ∧
      st.solve_cnt = min cfg.n_sols (succCount T env.attempts (2 * cfg.n_sols).toNat : Int) ∧
      st.solve_cnt = (succCount T env.attempts st.times.length : Int) ∧
      st.solve_cnt + st.failed = (st.times.length : Int) ∧
      (st.sols.length : Int) = st.solve_cnt ∧
      st.solve_cnt ≤ cfg.n_sols ∧
      (st.solve_cnt = cfg.n_sols →
        0 < st.times.length ∧
        attemptOk T (env.attempts (st.times.length - 1)) = true ∧
        (succCount T env.attempts (st.times.length - 1) : Int) = cfg.n_sols - 1) ∧
      (st.solve_cnt < cfg.n_sols → (st.times.length : Int) = 2 * cfg.n_sols) ∧
      (∀ extra : Nat,
        mainLoop T cfg.n_sols env.attempts (loopFuel cfg.n_sols + extra) 0 (loopEntry T cfg) = st) ∧
      (env.prunInitFails = false →
        (run T cfg env).state.solve_cnt = st.solve_cnt ∧
        (run T cfg env).state.failed = st.failed ∧
        (run T cfg env).state.times = st.times) := by
  subst hst
  obtain ⟨k1, hk1, inv, hend⟩ := loopState_exit T cfg env h1 h2
  have htl := inv.times_len
  have hcnt : (loopState T cfg env (loopFuel cfg.n_sols)).solve_cnt =
      (succCount T env.attempts k1 : Int) := by rw [inv.cnt, inv.sols_len]
  have hle := succCount_le T env.attempts k1
  have hmin : (succCount T env.attempts k1 : Int) =
      min cfg.n_sols (succCount T env.attempts (2 * cfg.n_sols).toNat : Int) := by
    rcases hend with ⟨_, h3, _⟩ | ⟨h3, h4⟩
    · have hmono : succCount T env.attempts k1 ≤
          succCount T env.attempts (2 * cfg.n_sols).toNat :=
        succCount_mono T env.attempts (by omega)
      rw [h3, min_eq_left]
      omega
    · have hk : (2 * cfg.n_sols).toNat = k1 := by omega
      rw [hk, min_eq_right]
      omega
  refine ⟨by rw [htl]; exact hk1, ?_, ?_, ?_, ?_, ?_, ?_, ?_, ?_, ?_, ?_⟩
  · rw [inv.solves, htl]
  · rw [hcnt]; exact hmin
  · rw [hcnt, htl]
  · rw [inv.failed, inv.cnt, htl]; omega
  · rw [inv.cnt]
  · rw [hcnt]
    rcases hend with ⟨_, h3, _⟩ | ⟨h3, _⟩ <;> omega
  · intro h
    rw [hcnt] at h
    rw [htl]
    rcases hend with ⟨h3, _, h5, h6⟩ | ⟨h3, _⟩
    · exact ⟨h3, h6, h5⟩
    · omega
  · intro h
    rw [hcnt] at h
    rw [htl]
    rcases hend with ⟨_, h3, _⟩ | ⟨_, h4⟩
    · omega
    · exact h4
  · intro extra
    exact loopFuel_stable T cfg env extra
  · intro h
    have hf := run_fields_of_success T cfg env h
    exact ⟨hf.2.2.1, hf.2.2.2.1, hf.2.2.2.2.1⟩

/-- Witness of C10 (amended): the default `n_sols = 1` on the concrete cube
model, every shuffle being the solved cube: one attempt, one recorded solution. -/
theorem main_loop_exit_counts_witness :
    (1 : Int) ≤ ({} : Config).n_sols ∧ ({} : Config).n_sols < 1073741824 ∧
      (loopState rubik {} (solvedEnv rubik) (loopFuel ({} : Config).n_sols)).solve_cnt =
        ({} : Config).n_sols ∧
      0 < (loopState rubik {} (solvedEnv rubik) (loopFuel ({} : Config).n_sols)).times.length ∧
      (run rubik {} (solvedEnv rubik)).state.solve_cnt =
        (loopState rubik {} (solvedEnv rubik) (loopFuel ({} : Config).n_sols)).solve_cnt :=
  have h := main_loop_exit_counts rubik {} (solvedEnv rubik) (by decide) (by decide)
    (loopState rubik {} (solvedEnv rubik) (loopFuel ({} : Config).n_sols)) rfl
  ⟨by decide, by decide, by decide, (h.2.2.2.2.2.2.2.1 (by decide)).1,
    (h.2.2.2.2.2.2.2.2.2.2 rfl).1⟩

theorem attemptOk_solvedEnv (T : Tables) (j : Nat) :
    attemptOk T ((solvedEnv T).attempts j) = true := by
  simp [attemptOk, solvedEnv, check, checkLoop]

/-- Counterexample to C10 as stated: for `-n 1073741824` the bound `2*n_sols`
does not fit an `int`; as a 32-bit value it is negative, the loop body never
runs, and `solve_cnt` stays 0 although the first outcome would be a success. -/
theorem loop_skipped_on_overflow :
    wrap32 (2 * 1073741824) = -2147483648 ∧
      (main rubik [Opt.n (some 1073741824)] (solvedEnv rubik)).state.times = [] ∧
      (main rubik [Opt.n (some 1073741824)] (solvedEnv rubik)).state.solve_cnt = 0 ∧
      1 ≤ succCount rubik (solvedEnv rubik).attempts 2147483648 ∧
      (main rubik [Opt.n (some 1073741824)] (solvedEnv rubik)).state.solve_cnt ≠
        min 1073741824 (succCount rubik (solvedEnv rubik).attempts 2147483648 : Int) := by
  have hmain : main rubik [Opt.n (some 1073741824)] (solvedEnv rubik) =
      run rubik { n_sols := 1073741824 } (solvedEnv rubik) := main_of_parse_ok _ _ _ _ rfl
  have hfuel : loopFuel ({ n_sols := 1073741824 } : Config).n_sols = 0 := by decide
  have hf := run_fields_of_success rubik { n_sols := 1073741824 } (solvedEnv rubik) rfl
  rw [hfuel] at hf
  have hsucc : 1 ≤ succCount rubik (solvedEnv rubik).attempts 2147483648 := by
    have h1 : succCount rubik (solvedEnv rubik).attempts 1 = 1 :=
      succCount_all rubik _ (attemptOk_solvedEnv rubik) 1
    have h2 := succCount_mono rubik (solvedEnv rubik).attempts
      (show 1 ≤ 2147483648 by omega)
    omega
  have htimes : (main rubik [Opt.n (some 1073741824)] (solvedEnv rubik)).state.times = [] := by
    rw [hmain, hf.2.2.2.2.1]; rfl
  have hcnt : (main rubik [Opt.n (some 1073741824)] (solvedEnv rubik)).state.solve_cnt = 0 := by
    rw [hmain, hf.2.2.1]; rfl
  refine ⟨by decide, htimes, hcnt, hsucc, ?_⟩
  rw [hcnt]
  intro h
  have h3 : (1 : Int) ≤ (succCount rubik (solvedEnv rubik).attempts 2147483648 : Int) := by
    exact_mod_cast hsucc
  have h4 : (1 : Int) ≤ min 1073741824
      (succCount rubik (solvedEnv rubik).attempts 2147483648 : Int) := le_min (by decide) h3
  omega

/-! ## The statistics writer on a zero-length solution -/

theorem signal_handler_empty_solution (T : Tables) (st : State T) (signal_num : Int)
    (hf : st.freq = List.replicate 100 0) (hs : st.sols = [[]]) :
    signal_handler T st signal_num =
      (Exit.assertFailed, (1 : Int) :: List.replicate 99 0) := by
  unfold signal_handler
  rw [hf, hs]
  rfl

/-- C8, at the failing input: the default run in which the shuffle returns the
solved cube and `solve` the zero-length solution.  The solution passes `check`
and is recorded; the statistics writer counts it in `freq[0]`, adds up
`freq[1..30]` to `total = 0`, and `assert(total == sols.size())` fails with
`sols.size() = 1`. -/
theorem stats_assert_fails_on_empty_solution (T : Tables) :
    check T T.SOLVED_CUBE [] = true ∧
      (main T [] (solvedEnv T)).state.sols = [[]] ∧
      (main T [] (solvedEnv T)).state.freq = (1 : Int) :: List.replicate 99 0 ∧
      histTotal ((1 : Int) :: List.replicate 99 0) = 0 ∧
      (main T [] (solvedEnv T)).exit = Exit.assertFailed := by
  have hmain : main T [] (solvedEnv T) = run T {} (solvedEnv T) := rfl
  have hok := attemptOk_solvedEnv T 0
  have hfuel : loopFuel ({} : Config).n_sols = 1 + 1 := by decide
  have hsnd : (iteration T ({} : Config).n_sols ((solvedEnv T).attempts 0) ((0 : Nat) : Int)
      (loopEntry T {})).2 = true := by
    rw [iteration_snd, hok]; rfl
  have hloop : loopState T {} (solvedEnv T) (loopFuel ({} : Config).n_sols) =
      (iteration T ({} : Config).n_sols ((solvedEnv T).attempts 0) ((0 : Nat) : Int)
        (loopEntry T {})).1 := by
    rw [hfuel]
    exact mainLoop_break T _ _ 1 0 (loopEntry T {}) (by decide) hsnd
  have hchk : check T T.SOLVED_CUBE [] = true := by simp [check, checkLoop]
  have hit := iteration_ok T ({} : Config).n_sols ((solvedEnv T).attempts 0) ((0 : Nat) : Int)
    (loopEntry T {}) [] [] rfl hchk
  have hsols : (loopState T {} (solvedEnv T) (loopFuel ({} : Config).n_sols)).sols = [[]] := by
    rw [hloop, hit]; rfl
  have hfreq : (loopState T {} (solvedEnv T) (loopFuel ({} : Config).n_sols)).freq =
      List.replicate 100 0 := by
    rw [hloop, hit]; rfl
  have hsig := signal_handler_empty_solution T _ 0 hfreq hsols
  have hrun := run_state_of_success T {} (solvedEnv T) rfl
  refine ⟨hchk, ?_, ?_, by decide, ?_⟩
  · rw [hmain, hrun.1]; exact hsols
  · rw [hmain, hrun.1, hsig]
  · rw [hmain, hrun.2, hsig]

end TwoPhase
